import Mathlib

/-!
Verification of the stealth-market-intelligence scraping and enrichment
pipeline.  The Python sources (`src/stealth_scraper.py`, `src/ai_enrichment.py`,
`src/human_behavior.py`) are shallowly embedded as executable Lean functions:
strings are `String`/`List Char`, Python `float` values are `ℚ`, fallible
operations return `Option`, and the LLM provider call is a parameter that
returns `none` on a failed call or unparsable response.
-/

namespace SMI

/-- Python `str.lower()` restricted to per-character lowering (the texts the
scraper handles are ASCII). -/
def pyLower (s : String) : String := String.mk (s.toList.map Char.toLower)

/-- Python `needle in hay` substring test on character lists. -/
def strContains : List Char → List Char → Bool
  | [], needle => needle.isEmpty
  | h :: t, needle => needle.isPrefixOf (h :: t) || strContains t needle

/-- Leftmost match of the regex `\d+\.?\d*` (used, after removing commas, also
for the price pattern `[\d,]+\.?\d*`, which then matches the same tokens):
the first maximal digit run, an optional dot, and a following digit run. -/
def findNumToken : List Char → Option (List Char)
  | [] => none
  | c :: rest =>
    if c.isDigit then
      let ds := (c :: rest).takeWhile (fun d => d.isDigit)
      some (match (c :: rest).drop ds.length with
        | '.' :: r2 => ds ++ '.' :: r2.takeWhile (fun d => d.isDigit)
        | _ => ds)
    else findNumToken rest

/-- Numeric value of a digit string (most significant first). -/
def digitsVal (l : List Char) : ℕ :=
  l.foldl (fun a c => a * 10 + (c.toNat - 48)) 0

/-- Python `float(tok)` for a token of shape `digits [ . digits ]`. -/
def tokenToRat (tok : List Char) : ℚ :=
  let intPart := tok.takeWhile (fun d => d.isDigit)
  let frac := match tok.drop intPart.length with
    | '.' :: r => r
    | _ => []
  (digitsVal intPart : ℚ) + (digitsVal frac : ℚ) / (10 : ℚ) ^ frac.length

/-- `DataExtractor.extract_price`: empty and `"N/A"` inputs yield `none`;
otherwise commas are stripped and the first decimal-number token is parsed. -/
def extract_price (s : String) : Option ℚ :=
  if s = "" ∨ s = "N/A" then none
  else
    match findNumToken (s.toList.filter (fun c => c ≠ ',')) with
    | some tok => some (tokenToRat tok)
    | none => none

/-- `DataExtractor.extract_rating`: first decimal-number token capped at 5.0,
else the word vocabulary one..five searched in the lowercased text, else
`none`. -/
def extract_rating (s : String) : Option ℚ :=
  if s = "" ∨ s = "N/A" then none
  else
    match findNumToken s.toList with
    | some tok => some (min (tokenToRat tok) 5)
    | none =>
      let low := (pyLower s).toList
      if strContains low "one".toList then some 1
      else if strContains low "two".toList then some 2
      else if strContains low "three".toList then some 3
      else if strContains low "four".toList then some 4
      else if strContains low "five".toList then some 5
      else none

/-- Result of `DataExtractor.extract_stock_info`.  `raw_text = none` models
the `raw_text` key being absent from the returned dict (the empty/`"N/A"`
early return omits it). -/
structure StockInfo where
  in_stock : Option Bool
  scarcity_signal : Option String
  raw_text : Option String
deriving DecidableEq, Repr

/-- Attempted match of the regex `only (\d+) left` at the head of the text:
the literal `"only "`, a maximal nonempty digit run, then the literal
`" left"`. -/
def scarcityAt (l : List Char) : Option (List Char) :=
  if "only ".toList.isPrefixOf l ∧
      (l.drop 5).takeWhile (fun d => d.isDigit) ≠ [] ∧
      " left".toList.isPrefixOf
        ((l.drop 5).drop ((l.drop 5).takeWhile (fun d => d.isDigit)).length) then
    some ("only ".toList ++ (l.drop 5).takeWhile (fun d => d.isDigit) ++ " left".toList)
  else none

/-- `re.search(r'only (\d+) left', text)`: leftmost match. -/
def findScarcity : List Char → Option (List Char)
  | [] => none
  | c :: rest =>
    match scarcityAt (c :: rest) with
    | some m => some m
    | none => findScarcity rest

/-- `DataExtractor.extract_stock_info`. -/
def extract_stock_info (s : String) : StockInfo :=
  if s = "" ∨ s = "N/A" then ⟨none, none, none⟩
  else
    let low := (pyLower s).toList
    let inStock := strContains low "in stock".toList ||
      strContains low "available".toList ||
      strContains low "ready to ship".toList
    ⟨some inStock, (findScarcity low).map String.mk, some s⟩

/-- A scraped product record, the dict built in
`StealthScraper._extract_products`. -/
structure Product where
  id : String
  name : String
  price : Option ℚ
  price_raw : String
  rating : Option ℚ
  rating_raw : String
  stock_info : StockInfo
  source : String
  source_url : String
  scraped_at : String
deriving DecidableEq, Repr

/-- The four raw field texts obtained for one container element by
`DataExtractor.extract_text` (already defaulted to `"N/A"` on failure). -/
structure RawTexts where
  name : String
  price_raw : String
  rating_raw : String
  avail_raw : String
deriving DecidableEq, Repr

/-- Building one product dict from its raw texts, with the 1-based ordinal
`ord` (`id = f"{target_name}_{idx + 1}"`). -/
def mkProduct (target url now : String) (ord : ℕ) (r : RawTexts) : Product :=
  { id := target ++ "_" ++ toString ord
    name := r.name
    price := extract_price r.price_raw
    price_raw := r.price_raw
    rating := extract_rating r.rating_raw
    rating_raw := r.rating_raw
    stock_info := extract_stock_info r.avail_raw
    source := target
    source_url := url
    scraped_at := now }

/-- The extraction loop of `StealthScraper._extract_products`: `i` is the
0-based index into the truncated element list; a `none` element models an
exception raised while extracting that element, which is skipped
(`except ... continue`) while its ordinal position is still consumed. -/
def extractAux (target url now : String) : ℕ → List (Option RawTexts) → List Product
  | _, [] => []
  | i, none :: es => extractAux target url now (i + 1) es
  | i, some r :: es => mkProduct target url now (i + 1) r :: extractAux target url now (i + 1) es

/-- `StealthScraper._extract_products`: iterate over
`product_elements[:max_products]`. -/
def extract_products (target url now : String) (elems : List (Option RawTexts)) (maxP : ℕ) : List Product :=
  extractAux target url now 0 (elems.take maxP)

/-- The 1-based ordinals of the elements that extract successfully, in loop
order. -/
def okIndicesAux : ℕ → List (Option RawTexts) → List ℕ
  | _, [] => []
  | i, none :: es => okIndicesAux (i + 1) es
  | i, some _ :: es => (i + 1) :: okIndicesAux (i + 1) es

/-- Ordinals assigned by the extraction loop under the `max_products` cap. -/
def okIndices (elems : List (Option RawTexts)) (maxP : ℕ) : List ℕ :=
  okIndicesAux 0 (elems.take maxP)

/-- The pricing tiers of the enrichment engine. -/
inductive Category where
  | Budget
  | MidRange
  | HighEnd
deriving DecidableEq, Repr

/-- The category strings used by `ai_enrichment.py`. -/
def Category.toStr : Category → String
  | .Budget => "Budget"
  | .MidRange => "Mid Range"
  | .HighEnd => "High End"

/-- `AIEnrichmentEngine._fallback_categorization`: rule-based tiering against
the average price (`0.7` and `1.3` thresholds). -/
def fallback_categorization (price avg : ℚ) : Category :=
  if price < avg * (7 / 10) then .Budget
  else if price < avg * (13 / 10) then .MidRange
  else .HighEnd

/-- `price_stats` computed in `AIEnrichmentEngine.categorize_products`. -/
structure PriceStats where
  min : ℚ
  max : ℚ
  avg : ℚ
deriving DecidableEq, Repr

/-- A product as handled by the enrichment engine: the base record plus the
three fields enrichment may add (`none` = key absent from the dict). -/
structure EProduct where
  base : Product
  ai_category : Option String
  ai_reasoning : Option String
  enriched_at : Option String
deriving DecidableEq, Repr

/-- One entry of the provider's parsed `categorizations` array. -/
structure Categorization where
  id : String
  category : String
  reasoning : String
deriving DecidableEq, Repr

/-- `{c['id']: c for c in categorizations}` followed by lookup: later entries
with the same id overwrite earlier ones. -/
def lastCat (cats : List Categorization) (i : String) : Option Categorization :=
  (cats.filter (fun c => c.id = i)).getLast?

/-- `batch_size = 20` slicing, `valid_products[i:i+batch_size]` for
`i = 0, 20, 40, ...`, with a fuel argument (`fuel ≥ length`) to keep the
recursion structural. -/
def batchesAux : ℕ → List α → List (List α)
  | 0, _ => []
  | _, [] => []
  | fuel + 1, x :: xs => (x :: xs.take 19) :: batchesAux fuel (xs.drop 19)

/-- The batch decomposition used by `categorize_products`. -/
def batches20 (l : List α) : List (List α) :=
  batchesAux l.length l

/-- `AIEnrichmentEngine._apply_fallback`. -/
def apply_fallback (stats : PriceStats) (now : String) (p : EProduct) : EProduct :=
  { p with
    ai_category := some (fallback_categorization (p.base.price.getD 0) stats.avg).toStr
    ai_reasoning := some "Rule-based categorization (AI unavailable)"
    enriched_at := some now }

/-- `AIEnrichmentEngine._enrich_batch`, with the provider call and JSON parse
abstracted into `pres` (`none` = the call raised or the response failed to
parse, which sends the whole batch to `_apply_fallback`). -/
def enrich_batch (pres : Option (List Categorization)) (stats : PriceStats) (now : String)
    (batch : List EProduct) : List EProduct :=
  match pres with
  | none => batch.map (apply_fallback stats now)
  | some cats =>
    batch.map (fun p =>
      match lastCat cats p.base.id with
      | some c =>
        { p with
          ai_category := some c.category
          ai_reasoning := some c.reasoning
          enriched_at := some now }
      | none =>
        { p with
          ai_category := some (fallback_categorization (p.base.price.getD 0) stats.avg).toStr
          ai_reasoning := some "Fallback categorization based on price"
          enriched_at := some now })

/-- `AIEnrichmentEngine.categorize_products`: partition on non-null price,
compute price statistics, process fixed-size-20 batches, then append the
unpriced products unchanged.  `provider` yields the parsed categorizations
(or `none` on failure) for each batch. -/
def categorize_products (provider : List EProduct → Option (List Categorization))
    (now : String) (products : List EProduct) : List EProduct :=
  match products.filter (fun p => p.base.price.isSome) with
  | [] => products
  | v :: vs =>
    let q := v.base.price.getD 0
    let qs := vs.map (fun p => p.base.price.getD 0)
    let stats : PriceStats :=
      ⟨qs.foldl min q, qs.foldl max q, (q + qs.sum) / ((qs.length : ℚ) + 1)⟩
    let enriched :=
      ((batches20 (v :: vs)).map (fun b => enrich_batch (provider b) stats now b)).flatten
    enriched ++ products.filter (fun p => p.base.price.isNone)

/-- `random.randint(300, 800)` driven by a raw random stream `r`: the scroll
increment of iteration `i` of `scroll_to_bottom`. -/
def scrollIncrement (r : ℕ → ℕ) (i : ℕ) : ℕ :=
  300 + r i % 501

/-- The `while True` loop of `HumanBehaviorSimulator.scroll_to_bottom` over a
stream `h` of document-height polls (`h 0` is the poll taken before the loop,
`h (i+1)` the poll of iteration `i+1`).  `scroll_loop h i fuel` runs at most
`fuel` further iterations starting after poll `i`, returning the index of a
poll that equalled its predecessor (`break`), or `none` if the fuel runs out
first.  The source loop has no fuel: it terminates iff some fuel suffices. -/
def scroll_loop (h : ℕ → ℤ) : ℕ → ℕ → Option ℕ
  | _, 0 => none
  | i, fuel + 1 =>
    if h (i + 1) = h i then some (i + 1) else scroll_loop h (i + 1) fuel

/-- Termination of `scroll_to_bottom` on poll stream `h`. -/
def scroll_to_bottom_terminates (h : ℕ → ℤ) : Prop :=
  ∃ fuel, (scroll_loop h 0 fuel).isSome

/-- JSON values, with numerals as `ℚ`. -/
inductive Json where
  | jnull
  | jbool (b : Bool)
  | jnum (q : ℚ)
  | jstr (s : String)
  | jarr (l : List Json)
  | jobj (kvs : List (String × Json))

/-- Key lookup in a JSON object (dict keys are unique, first match). -/
def jGet : List (String × Json) → String → Option Json
  | [], _ => none
  | (k, v) :: rest, key => if k = key then some v else jGet rest key

/-- `json.dump` of an optional number (Python `None` → JSON null). -/
def encOptRat : Option ℚ → Json
  | none => .jnull
  | some q => .jnum q

/-- `json.dump` of an optional bool. -/
def encOptBool : Option Bool → Json
  | none => .jnull
  | some b => .jbool b

/-- `json.dump` of an optional string. -/
def encOptStr : Option String → Json
  | none => .jnull
  | some s => .jstr s

/-- The `stock_info` dict as serialized: the `raw_text` key is present only
when the extractor produced it. -/
def encStock (si : StockInfo) : Json :=
  .jobj ([("in_stock", encOptBool si.in_stock),
          ("scarcity_signal", encOptStr si.scarcity_signal)] ++
    (match si.raw_text with
     | none => []
     | some r => [("raw_text", .jstr r)]))

/-- The product dict as serialized by `json.dump` inside
`StealthScraper.save_to_json`. -/
def encProduct (p : Product) : Json :=
  .jobj [("id", .jstr p.id), ("name", .jstr p.name),
         ("price", encOptRat p.price), ("price_raw", .jstr p.price_raw),
         ("rating", encOptRat p.rating), ("rating_raw", .jstr p.rating_raw),
         ("stock_info", encStock p.stock_info), ("source", .jstr p.source),
         ("source_url", .jstr p.source_url), ("scraped_at", .jstr p.scraped_at)]

/-- Reading an optional number back from JSON. -/
def decOptRat : Json → Option (Option ℚ)
  | .jnull => some none
  | .jnum q => some (some q)
  | _ => none

/-- Reading an optional bool back from JSON. -/
def decOptBool : Json → Option (Option Bool)
  | .jnull => some none
  | .jbool b => some (some b)
  | _ => none

/-- Reading an optional string back from JSON. -/
def decOptStr : Json → Option (Option String)
  | .jnull => some none
  | .jstr s => some (some s)
  | _ => none

/-- Reading a string back from JSON. -/
def decStr : Json → Option String
  | .jstr s => some s
  | _ => none

/-- Reading a `stock_info` object back. -/
def decStock (j : Json) : Option StockInfo :=
  match j with
  | .jobj kvs =>
    match (jGet kvs "in_stock").bind decOptBool,
          (jGet kvs "scarcity_signal").bind decOptStr with
    | some a, some b =>
      match jGet kvs "raw_text" with
      | none => some ⟨a, b, none⟩
      | some (.jstr r) => some ⟨a, b, some r⟩
      | some _ => none
    | _, _ => none
  | _ => none

/-- Reading one product dict back, field by field. -/
def decProduct (j : Json) : Option Product :=
  match j with
  | .jobj kvs =>
    match (jGet kvs "id").bind decStr, (jGet kvs "name").bind decStr,
          (jGet kvs "price").bind decOptRat, (jGet kvs "price_raw").bind decStr,
          (jGet kvs "rating").bind decOptRat, (jGet kvs "rating_raw").bind decStr,
          (jGet kvs "stock_info").bind decStock, (jGet kvs "source").bind decStr,
          (jGet kvs "source_url").bind decStr, (jGet kvs "scraped_at").bind decStr with
    | some i, some n, some pr, some prr, some ra, some rar, some si, some so,
      some su, some sa =>
      some ⟨i, n, pr, prr, ra, rar, si, so, su, sa⟩
    | _, _, _, _, _, _, _, _, _, _ => none
  | _ => none

/-- The raw-output document written by `StealthScraper.save_to_json`:
`{metadata: {target, total_products, scraped_at}, products: [...]}`. -/
def save_to_json (target now : String) (ps : List Product) : Json :=
  .jobj [("metadata", .jobj [("target", .jstr target),
                             ("total_products", .jnum ps.length),
                             ("scraped_at", .jstr now)]),
         ("products", .jarr (ps.map encProduct))]

/-- The loading side (`enrich_from_file`): `json.load` then
`data.get('products', [])`, with each product dict read back field by
field. -/
def load_products (j : Json) : Option (List Product) :=
  match j with
  | .jobj kvs =>
    match jGet kvs "products" with
    | some (.jarr l) => l.mapM decProduct
    | none => some []
    | some _ => none
  | _ => none

lemma isPrefixOf_iff_ex (l₁ l₂ : List Char) :
    l₁.isPrefixOf l₂ = true ↔ ∃ t, l₁ ++ t = l₂ := by
  induction l₁ generalizing l₂ with
  | nil => simp [List.isPrefixOf]
  | cons a as ih =>
    cases l₂ with
    | nil => simp [List.isPrefixOf]
    | cons b bs =>
      simp only [List.isPrefixOf, Bool.and_eq_true, beq_iff_eq, ih,
        List.cons_append, List.cons.injEq]
      constructor
      · rintro ⟨rfl, t, rfl⟩
        exact ⟨t, rfl, rfl⟩
      · rintro ⟨t, rfl, rfl⟩
        exact ⟨rfl, t, rfl⟩

lemma strContains_iff (hay needle : List Char) :
    strContains hay needle = true ↔ ∃ pre post, hay = pre ++ needle ++ post := by
  induction hay with
  | nil =>
    simp only [strContains, List.isEmpty_iff]
    constructor
    · rintro rfl
      exact ⟨[], [], rfl⟩
    · rintro ⟨pre, post, h⟩
      rcases List.append_eq_nil.mp h.symm with ⟨h1, h2⟩
      exact (List.append_eq_nil.mp h1).2
  | cons c t ih =>
    simp only [strContains, Bool.or_eq_true, isPrefixOf_iff_ex, ih]
    constructor
    · rintro (⟨post, h⟩ | ⟨pre, post, rfl⟩)
      · exact ⟨[], post, h.symm⟩
      · exact ⟨c :: pre, post, rfl⟩
    · rintro ⟨pre, post, h⟩
      cases pre with
      | nil => exact Or.inl ⟨post, h.symm⟩
      | cons x xs =>
        rw [List.cons_append, List.cons_append] at h
        injection h with h1 h2
        exact Or.inr ⟨xs, post, h2⟩

lemma findNumToken_eq_none (l : List Char) :
    findNumToken l = none ↔ ∀ c ∈ l, c.isDigit = false := by
  induction l with
  | nil => simp [findNumToken]
  | cons c rest ih =>
    by_cases h : c.isDigit
    · simp [findNumToken, h]
    · rw [Bool.not_eq_true] at h
      simp [findNumToken, h, ih]

lemma mem_comma_filter {s : String} {c : Char} :
    c ∈ s.toList.filter (fun c => c ≠ ',') ↔ c ∈ s.toList ∧ c ≠ ',' := by
  simp [List.mem_filter]

/-- **C4.** `extract_price` strips thousands separators, parses the first
decimal-number token, and returns `none` exactly when the input holds no
digit (hence no numeric token) or is the `"N/A"` sentinel or empty; the
spec's three concrete examples hold. -/
theorem price_null_iff_no_token :
    (∀ s : String, extract_price s = none ↔
      ((∀ c ∈ s.toList, c.isDigit = false) ∨ s = "N/A" ∨ s = ""))
    ∧ extract_price "$1,234.56" = some 1234.56
    ∧ extract_price "N/A" = none
    ∧ extract_price "" = none := by
  refine ⟨?_, ?_, by decide, by decide⟩
  · intro s
    by_cases hs : s = "" ∨ s = "N/A"
    · rw [extract_price, if_pos hs]
      rcases hs with rfl | rfl <;> simp
    · rw [extract_price, if_neg hs]
      push_neg at hs
      cases hm : findNumToken (s.toList.filter (fun c => c ≠ ',')) with
      | some tok =>
        simp only [reduceCtorEq, false_iff]
        push_neg
        refine ⟨?_, hs.2, hs.1⟩
        by_contra hno
        push_neg at hno
        have : findNumToken (s.toList.filter (fun c => c ≠ ',')) = none := by
          rw [findNumToken_eq_none]
          intro c hc
          have := hno c (mem_comma_filter.mp hc).1
          simpa using this
        rw [this] at hm
        exact Option.noConfusion hm
      | none =>
        simp only [true_iff]
        left
        intro c hc
        by_cases hcc : c = ','
        · subst hcc; decide
        · exact (findNumToken_eq_none _).mp hm c (mem_comma_filter.mpr ⟨hc, hcc⟩)
  · have h : extract_price "$1,234.56" =
        some (((1234 : ℕ) : ℚ) + ((56 : ℕ) : ℚ) / 10 ^ 2) := rfl
    rw [h]
    norm_num

/-- `price_null_iff_no_token` instantiated at a concrete input. -/
theorem price_null_iff_no_token_witness :
    extract_price "abc" = none ↔
      ((∀ c ∈ ("abc" : String).toList, c.isDigit = false) ∨
        "abc" = "N/A" ∨ "abc" = "") :=
  price_null_iff_no_token.1 "abc"

lemma strContains_eq_false_iff (hay needle : List Char) :
    strContains hay needle = false ↔ ¬∃ pre post, hay = pre ++ needle ++ post := by
  rw [← strContains_iff]
  cases strContains hay needle <;> simp

lemma extract_rating_eq_none_iff (s : String) :
    extract_rating s = none ↔
      findNumToken s.toList = none ∧
        ∀ w ∈ ["one", "two", "three", "four", "five"],
          strContains (pyLower s).toList w.toList = false := by
  by_cases hs : s = "" ∨ s = "N/A"
  · rcases hs with rfl | rfl <;> decide
  · rw [extract_rating, if_neg hs]
    cases hm : findNumToken s.toList with
    | some tok => simp [hm]
    | none =>
      simp only [hm, true_and]
      split_ifs with h1 h2 h3 h4 h5 <;>
        simp_all [List.forall_mem_cons]

/-- **C3.** `extract_rating` prefers the first decimal-number token (clamped
to at most 5.0), falls back to the case-insensitive word vocabulary
one..five, returns `none` exactly when neither a digit nor a vocabulary word
occurs, and satisfies the spec's concrete examples (plus `"one 2"`, showing
the numeric token takes precedence over the vocabulary). -/
theorem rating_clamp_and_vocabulary :
    (∀ (s : String) (q : ℚ), extract_rating s = some q → q ≤ 5)
    ∧ (∀ s : String, extract_rating s = none ↔
        ((∀ c ∈ s.toList, c.isDigit = false) ∧
          ∀ w ∈ ["one", "two", "three", "four", "five"],
            ¬∃ pre post, (pyLower s).toList = pre ++ w.toList ++ post))
    ∧ extract_rating "4.5 out of 5" = some 4.5
    ∧ extract_rating "Three" = some 3
    ∧ extract_rating "TWO stars" = some 2
    ∧ extract_rating "" = none
    ∧ extract_rating "9" = some 5
    ∧ extract_rating "one 2" = some 2 := by
  refine ⟨?_, ?_, ?_, by decide, by decide, by decide, ?_, ?_⟩
  · intro s q h
    rw [extract_rating] at h
    by_cases hs : s = "" ∨ s = "N/A"
    · rw [if_pos hs] at h
      exact absurd h (by simp)
    · rw [if_neg hs] at h
      split at h
      · injection h with h'
        rw [← h']
        exact min_le_right _ _
      · simp only [] at h
        split_ifs at h <;> injection h with h' <;> rw [← h'] <;> norm_num
  · intro s
    rw [extract_rating_eq_none_iff, findNumToken_eq_none]
    constructor
    · rintro ⟨h1, h2⟩
      exact ⟨h1, fun w hw => (strContains_eq_false_iff _ _).mp (h2 w hw)⟩
    · rintro ⟨h1, h2⟩
      exact ⟨h1, fun w hw => (strContains_eq_false_iff _ _).mpr (h2 w hw)⟩
  · have h : extract_rating "4.5 out of 5" =
        some (min (((4 : ℕ) : ℚ) + ((5 : ℕ) : ℚ) / 10 ^ 1) 5) := rfl
    rw [h, min_eq_left (by norm_num)]
    norm_num
  · have h : extract_rating "9" =
        some (min (((9 : ℕ) : ℚ) + ((0 : ℕ) : ℚ) / 10 ^ 0) 5) := rfl
    rw [h, min_eq_right (by norm_num)]
  · have h : extract_rating "one 2" =
        some (min (((2 : ℕ) : ℚ) + ((0 : ℕ) : ℚ) / 10 ^ 0) 5) := rfl
    rw [h, min_eq_left (by norm_num)]
    norm_num

/-- `rating_clamp_and_vocabulary` instantiated at a concrete input: the
clamp applied to `extract_rating "Three"`. -/
theorem rating_clamp_witness : (3 : ℚ) ≤ 5 :=
  rating_clamp_and_vocabulary.1 "Three" 3 (by decide)

lemma drop_takeWhile_length (p : α → Bool) (l : List α) :
    l.drop (l.takeWhile p).length = l.dropWhile p := by
  induction l with
  | nil => rfl
  | cons x xs ih =>
    by_cases hp : p x = true
    · simp [List.takeWhile_cons, List.dropWhile_cons, hp, ih]
    · rw [Bool.not_eq_true] at hp
      simp [List.takeWhile_cons, List.dropWhile_cons, hp]

lemma scarcityAt_some {l t : List Char} (h : scarcityAt l = some t) :
    ∃ ds post, ds ≠ [] ∧ (∀ c ∈ ds, c.isDigit = true) ∧
      t = "only ".toList ++ ds ++ " left".toList ∧ l = t ++ post := by
  rw [scarcityAt] at h
  split_ifs at h with hc
  obtain ⟨hpre, hne, hleft⟩ := hc
  injection h with h'
  obtain ⟨rest, hrest⟩ := (isPrefixOf_iff_ex _ _).mp hpre
  obtain ⟨tail, htail⟩ := (isPrefixOf_iff_ex _ _).mp hleft
  have hdrop : l.drop 5 = rest := by
    rw [← hrest]
    exact List.drop_left' rfl
  rw [hdrop] at hne htail h'
  rw [drop_takeWhile_length] at htail
  refine ⟨rest.takeWhile (fun d => d.isDigit), tail, hne, ?_, h'.symm, ?_⟩
  · intro c hc
    exact List.mem_takeWhile_imp hc
  · have hrest2 : rest = rest.takeWhile (fun d => d.isDigit) ++ (" left".toList ++ tail) := by
      rw [htail]
      exact (List.takeWhile_append_dropWhile _ _).symm
    rw [← h', ← hrest]
    conv_lhs => rw [hrest2]
    simp [List.append_assoc]

lemma scarcityAt_decomp {ds post : List Char} (hne : ds ≠ [])
    (hd : ∀ c ∈ ds, c.isDigit = true) :
    scarcityAt ("only ".toList ++ (ds ++ (" left".toList ++ post))) =
      some ("only ".toList ++ ds ++ " left".toList) := by
  have hdrop : ("only ".toList ++ (ds ++ (" left".toList ++ post))).drop 5 =
      ds ++ (" left".toList ++ post) := List.drop_left' rfl
  have htw : (ds ++ (" left".toList ++ post)).takeWhile (fun d => d.isDigit) = ds := by
    rw [List.takeWhile_append_of_pos hd]
    simp [List.takeWhile_cons]
  rw [scarcityAt, if_pos]
  · rw [hdrop, htw]
  · refine ⟨?_, ?_, ?_⟩
    · exact (isPrefixOf_iff_ex _ _).mpr ⟨_, rfl⟩
    · rw [hdrop, htw]; exact hne
    · rw [hdrop, htw, List.drop_left]
      exact (isPrefixOf_iff_ex _ _).mpr ⟨_, rfl⟩

lemma findScarcity_some {l t : List Char} (h : findScarcity l = some t) :
    ∃ pre suf, l = pre ++ suf ∧ scarcityAt suf = some t := by
  induction l with
  | nil => simp [findScarcity] at h
  | cons c rest ih =>
    rw [findScarcity] at h
    cases ha : scarcityAt (c :: rest) with
    | some m =>
      rw [ha] at h
      injection h with h'
      exact ⟨[], c :: rest, rfl, h' ▸ ha⟩
    | none =>
      rw [ha] at h
      obtain ⟨pre, suf, rfl, hat⟩ := ih h
      exact ⟨c :: pre, suf, rfl, hat⟩

lemma findScarcity_ne_none {l : List Char} (pre suf : List Char)
    (hl : l = pre ++ suf) (h2 : scarcityAt suf ≠ none) : findScarcity l ≠ none := by
  induction pre generalizing l with
  | nil =>
    rw [hl]
    simp only [List.nil_append]
    cases suf with
    | nil => exact absurd (by decide) h2
    | cons c rest =>
      rw [findScarcity]
      cases ha : scarcityAt (c :: rest) with
      | some m => simp
      | none => exact absurd ha h2
  | cons x xs ih =>
    subst hl
    rw [List.cons_append, findScarcity]
    cases ha : scarcityAt (x :: (xs ++ suf)) with
    | some m => simp
    | none => exact ih rfl

/-- A scarcity-pattern occurrence: the text `only <digits> left` with a
nonempty digit run. -/
def scarcityShape (ds : List Char) (t : List Char) : Prop :=
  ds ≠ [] ∧ (∀ c ∈ ds, c.isDigit = true) ∧
    t = "only ".toList ++ ds ++ " left".toList

/-- **C2** (amended). For non-empty, non-`"N/A"` input, `extract_stock_info`
returns the original text in `raw_text`, sets `in_stock` to true exactly when
one of the three availability phrases occurs in the lowercased text, and sets
`scarcity_signal` to a lowercased substring of shape `only <digits> left`
exactly when one occurs; for empty or `"N/A"` input all fields (including
`raw_text`) are absent.  The spec's concrete example holds. -/
theorem stock_info_fields :
    (∀ s : String, s ≠ "" → s ≠ "N/A" →
      (extract_stock_info s).raw_text = some s
      ∧ ((extract_stock_info s).in_stock = some true ↔
          ∃ w ∈ ["in stock", "available", "ready to ship"],
            ∃ pre post, (pyLower s).toList = pre ++ w.toList ++ post)
      ∧ (∀ t, (extract_stock_info s).scarcity_signal = some t →
          ∃ ds m, scarcityShape ds m ∧ t = String.mk m ∧
            ∃ pre post, (pyLower s).toList = pre ++ m ++ post)
      ∧ ((extract_stock_info s).scarcity_signal = none →
          ¬∃ ds m pre post, scarcityShape ds m ∧
            (pyLower s).toList = pre ++ m ++ post))
    ∧ (∀ s : String, s = "" ∨ s = "N/A" →
        extract_stock_info s = ⟨none, none, none⟩)
    ∧ extract_stock_info "Only 3 left in stock" =
        ⟨some true, some "only 3 left", some "Only 3 left in stock"⟩ := by
  refine ⟨?_, ?_, by decide⟩
  · intro s h1 h2
    have hs : ¬(s = "" ∨ s = "N/A") := by
      rintro (rfl | rfl) <;> simp_all
    rw [extract_stock_info, if_neg hs]
    refine ⟨rfl, ?_, ?_, ?_⟩
    · dsimp only
      simp only [Option.some.injEq, Bool.or_eq_true, strContains_iff]
      constructor
      · rintro ((⟨pre, post, hd⟩ | ⟨pre, post, hd⟩) | ⟨pre, post, hd⟩)
        · exact ⟨"in stock", by simp, pre, post, hd⟩
        · exact ⟨"available", by simp, pre, post, hd⟩
        · exact ⟨"ready to ship", by simp, pre, post, hd⟩
      · rintro ⟨w, hw, pre, post, hd⟩
        simp only [List.mem_cons, List.mem_singleton] at hw
        rcases hw with rfl | rfl | (rfl | hw)
        · exact Or.inl (Or.inl ⟨pre, post, hd⟩)
        · exact Or.inl (Or.inr ⟨pre, post, hd⟩)
        · exact Or.inr ⟨pre, post, hd⟩
        · exact absurd hw (List.not_mem_nil w)
    · dsimp only
      intro t h
      rw [Option.map_eq_some'] at h
      obtain ⟨m, hm, rfl⟩ := h
      obtain ⟨pre, suf, hsplit, hat⟩ := findScarcity_some hm
      obtain ⟨ds, post, hne, hd, ht, hsuf⟩ := scarcityAt_some hat
      refine ⟨ds, m, ⟨hne, hd, ht⟩, rfl, pre, post, ?_⟩
      rw [hsplit, hsuf]
      simp [List.append_assoc]
    · dsimp only
      intro h hex
      obtain ⟨ds, m, pre, post, ⟨hne, hd, hm⟩, hdecomp⟩ := hex
      rw [Option.map_eq_none'] at h
      refine findScarcity_ne_none pre
        ("only ".toList ++ (ds ++ (" left".toList ++ post))) ?_ ?_ h
      · rw [hdecomp, hm]
        simp [List.append_assoc]
      · rw [scarcityAt_decomp hne hd]
        simp
  · rintro s (rfl | rfl) <;> rfl

/-- **C2** (counterexample).  The claim as stated — that the result always
includes the original raw text, including for empty input and the `"N/A"`
sentinel — is false: for `"N/A"` the early return carries no `raw_text`
field at all. -/
theorem stock_info_raw_text_missing :
    (extract_stock_info "N/A").raw_text = none := by decide

/-- `stock_info_fields` instantiated at a concrete input. -/
theorem stock_info_fields_witness :
    (extract_stock_info "xyz").raw_text = some "xyz" :=
  (stock_info_fields.1 "xyz" (by decide) (by decide)).1

/-- A concrete three-product input for the enrichment engine, with price `q`
and id/name `i`. -/
def sampleEP (i : String) (q : ℚ) : EProduct :=
  ⟨⟨i, i, some q, "", none, "", ⟨none, none, none⟩, "s", "u", "t"⟩, none, none, none⟩

/-- **C1.** The deterministic fallback returns Budget exactly below
`0.7×avg`, MidRange exactly in `[0.7×avg, 1.3×avg)`, HighEnd otherwise; and
with the provider failing, priced inputs `[10, 20, 30]` (avg 20) are
categorized `[Budget, Mid Range, High End]`. -/
theorem fallback_thresholds :
    (∀ price avg : ℚ,
      (fallback_categorization price avg = .Budget ↔ price < avg * (7 / 10))
      ∧ (fallback_categorization price avg = .MidRange ↔
          avg * (7 / 10) ≤ price ∧ price < avg * (13 / 10))
      ∧ (fallback_categorization price avg = .HighEnd ↔
          avg * (7 / 10) ≤ price ∧ avg * (13 / 10) ≤ price))
    ∧ (categorize_products (fun _ => none) "now"
        [sampleEP "a" 10, sampleEP "b" 20, sampleEP "c" 30]).map
          (fun p => p.ai_category) =
        [some "Budget", some "Mid Range", some "High End"] := by
  constructor
  · intro price avg
    rw [fallback_categorization]
    split_ifs with h1 h2
    · exact ⟨⟨fun _ => h1, fun _ => rfl⟩,
        ⟨fun h => absurd h (by decide), fun h => absurd h1 (not_lt.mpr h.1)⟩,
        ⟨fun h => absurd h (by decide), fun h => absurd h1 (not_lt.mpr h.1)⟩⟩
    · rw [not_lt] at h1
      exact ⟨⟨fun h => absurd h (by decide), fun h => absurd h (not_lt.mpr h1)⟩,
        ⟨fun _ => ⟨h1, h2⟩, fun _ => rfl⟩,
        ⟨fun h => absurd h (by decide), fun h => absurd h2 (not_lt.mpr h.2)⟩⟩
    · rw [not_lt] at h1 h2
      exact ⟨⟨fun h => absurd h (by decide), fun h => absurd h (not_lt.mpr h1)⟩,
        ⟨fun h => absurd h (by decide), fun h => absurd h.2 (not_lt.mpr h2)⟩,
        ⟨fun _ => ⟨h1, h2⟩, fun _ => rfl⟩⟩
  · norm_num [categorize_products, sampleEP, batches20, batchesAux,
      enrich_batch, apply_fallback, fallback_categorization, Category.toStr,
      List.filter]

/-- `fallback_thresholds` instantiated at a concrete input: price 10 against
average 20 is Budget. -/
theorem fallback_thresholds_witness :
    fallback_categorization 10 20 = Category.Budget :=
  ((fallback_thresholds.1 10 20).1).mpr (by norm_num)

lemma batchesAux_nil (fuel : ℕ) : batchesAux fuel ([] : List α) = [] := by
  cases fuel <;> rfl

lemma batchesAux_fuel_irrel :
    ∀ (f1 f2 : ℕ) (l : List α), l.length ≤ f1 → l.length ≤ f2 →
      batchesAux f1 l = batchesAux f2 l := by
  intro f1
  induction f1 with
  | zero =>
    intro f2 l h1 _
    rw [List.length_eq_zero.mp (Nat.le_zero.mp h1), batchesAux_nil, batchesAux_nil]
  | succ f ih =>
    intro f2 l h1 h2
    cases l with
    | nil => rw [batchesAux_nil, batchesAux_nil]
    | cons x xs =>
      cases f2 with
      | zero => simp at h2
      | succ g =>
        rw [batchesAux, batchesAux]
        congr 1
        apply ih
        · simp only [List.length_drop]
          simp only [List.length_cons] at h1
          omega
        · simp only [List.length_drop]
          simp only [List.length_cons] at h2
          omega

lemma batches20_cons (x : α) (xs : List α) :
    batches20 (x :: xs) = (x :: xs.take 19) :: batches20 (xs.drop 19) := by
  rw [batches20, batches20]
  have h1 : batchesAux (x :: xs).length (x :: xs) =
      (x :: xs.take 19) :: batchesAux xs.length (xs.drop 19) := rfl
  rw [h1]
  congr 1
  apply batchesAux_fuel_irrel
  · simp only [List.length_drop]
    omega
  · exact le_refl _

lemma batches20_eq_nil_iff (l : List α) : batches20 l = [] ↔ l = [] := by
  cases l with
  | nil => simp [batches20, batchesAux]
  | cons x xs => simp [batches20_cons]

lemma batches20_flatten_aux :
    ∀ (n : ℕ) (l : List α), l.length ≤ n → (batches20 l).flatten = l := by
  intro n
  induction n with
  | zero =>
    intro l h
    rw [List.length_eq_zero.mp (Nat.le_zero.mp h)]
    rfl
  | succ m ih =>
    intro l h
    cases l with
    | nil => rfl
    | cons x xs =>
      rw [batches20_cons, List.flatten_cons, ih]
      · rw [List.cons_append, List.take_append_drop]
      · simp only [List.length_drop]
        simp only [List.length_cons] at h
        omega

lemma batches20_flatten (l : List α) : (batches20 l).flatten = l :=
  batches20_flatten_aux l.length l (le_refl _)

lemma batches20_sizes_aux :
    ∀ (n : ℕ) (l : List α), l.length ≤ n →
      (∀ b ∈ batches20 l, b.length ≤ 20 ∧ b ≠ []) ∧
        (∀ b ∈ (batches20 l).dropLast, b.length = 20) := by
  intro n
  induction n with
  | zero =>
    intro l h
    rw [List.length_eq_zero.mp (Nat.le_zero.mp h)]
    exact ⟨by simp [batches20, batchesAux], by simp [batches20, batchesAux]⟩
  | succ m ih =>
    intro l h
    cases l with
    | nil => exact ⟨by simp [batches20, batchesAux], by simp [batches20, batchesAux]⟩
    | cons x xs =>
      simp only [List.length_cons] at h
      have hlen : (xs.drop 19).length ≤ m := by
        simp only [List.length_drop]
        omega
      obtain ⟨ih1, ih2⟩ := ih (xs.drop 19) hlen
      rw [batches20_cons]
      constructor
      · intro b hb
        rcases List.mem_cons.mp hb with rfl | hb
        · refine ⟨?_, by simp⟩
          simp only [List.length_cons, List.length_take]
          omega
        · exact ih1 b hb
      · intro b hb
        cases htl : batches20 (xs.drop 19) with
        | nil =>
          rw [htl] at hb
          simp at hb
        | cons y ys =>
          rw [htl] at hb
          rw [List.dropLast_cons_of_ne_nil (by simp)] at hb
          rcases List.mem_cons.mp hb with rfl | hb
          · have hne : xs.drop 19 ≠ [] := by
              intro hc
              rw [hc] at htl
              simp [batches20, batchesAux] at htl
            have h19 : 19 ≤ xs.length := by
              by_contra hlt
              push_neg at hlt
              exact hne (List.drop_eq_nil_of_le (by omega))
            simp only [List.length_cons, List.length_take]
            omega
          · rw [← htl] at hb
            exact ih2 b hb

/-- **C6.** The enrichment engine's batching is by contiguous slices of
fixed size 20 in input order (their concatenation is the input, every batch
is nonempty with at most 20 elements, and all but the last have exactly 20);
41 products split into sizes `[20, 20, 1]`. -/
theorem batching_contiguous_20 :
    (∀ (α : Type) (l : List α),
      (batches20 l).flatten = l
      ∧ (∀ b ∈ batches20 l, b.length ≤ 20 ∧ b ≠ [])
      ∧ (∀ b ∈ (batches20 l).dropLast, b.length = 20))
    ∧ (batches20 (List.range 41)).map List.length = [20, 20, 1] := by
  refine ⟨fun α l => ⟨batches20_flatten l, ?_, ?_⟩, by decide⟩
  · exact (batches20_sizes_aux l.length l (le_refl _)).1
  · exact (batches20_sizes_aux l.length l (le_refl _)).2

/-- `batching_contiguous_20` instantiated at a concrete input: the first
batch of 21 elements has exactly 20 elements. -/
theorem batching_contiguous_20_witness :
    ((List.range 21).take 20).length = 20 :=
  ((batching_contiguous_20.1 ℕ (List.range 21)).2.2 _
    (by rw [show batches20 (List.range 21) =
      [(List.range 21).take 20, (List.range 21).drop 20] from by decide]; decide))

/-- **C10.** When no input product has a price, `categorize_products`
returns the input list itself — nothing is enriched, copied, reordered, or
dropped (and in particular the result does not depend on the provider). -/
theorem no_priced_products_identity :
    ∀ (provider : List EProduct → Option (List Categorization)) (now : String)
      (ps : List EProduct),
      (∀ p ∈ ps, p.base.price = none) →
      categorize_products provider now ps = ps := by
  intro provider now ps h
  rw [categorize_products]
  have hf : ps.filter (fun p => p.base.price.isSome) = [] := by
    rw [List.filter_eq_nil_iff]
    intro p hp
    simp [h p hp]
  rw [hf]

/-- An unpriced concrete product. -/
def sampleUnpriced : EProduct :=
  ⟨⟨"u1", "u1", none, "N/A", none, "N/A", ⟨none, none, none⟩, "s", "u", "t"⟩,
    none, none, none⟩

/-- `no_priced_products_identity` instantiated at a concrete input. -/
theorem no_priced_products_identity_witness :
    categorize_products (fun _ => none) "now" [sampleUnpriced] = [sampleUnpriced] :=
  no_priced_products_identity (fun _ => none) "now" [sampleUnpriced] (by decide)

lemma enrich_batch_base (pres : Option (List Categorization)) (stats : PriceStats)
    (now : String) (b : List EProduct) :
    (enrich_batch pres stats now b).map EProduct.base = b.map EProduct.base := by
  cases pres with
  | none =>
    rw [enrich_batch, List.map_map]
    exact List.map_congr_left (fun p _ => rfl)
  | some cats =>
    rw [enrich_batch, List.map_map]
    refine List.map_congr_left (fun p _ => ?_)
    simp only [Function.comp_apply]
    cases lastCat cats p.base.id <;> rfl

lemma enriched_flatten_base (provider : List EProduct → Option (List Categorization))
    (stats : PriceStats) (now : String) (l : List EProduct) :
    (((batches20 l).map (fun b => enrich_batch (provider b) stats now b)).flatten).map
        EProduct.base = l.map EProduct.base := by
  rw [List.map_flatten, List.map_map]
  have h : ((batches20 l).map
      (fun b => (enrich_batch (provider b) stats now b).map EProduct.base)) =
      (batches20 l).map (fun b => b.map EProduct.base) :=
    List.map_congr_left (fun b _ => enrich_batch_base _ _ _ _)
  have hc : List.map EProduct.base ∘ (fun b => enrich_batch (provider b) stats now b) =
      fun b => (enrich_batch (provider b) stats now b).map EProduct.base := rfl
  rw [hc, h, ← List.map_flatten, batches20_flatten]

lemma enriched_flatten_length (provider : List EProduct → Option (List Categorization))
    (stats : PriceStats) (now : String) (l : List EProduct) :
    (((batches20 l).map (fun b => enrich_batch (provider b) stats now b)).flatten).length =
      l.length := by
  have h := congrArg List.length (enriched_flatten_base provider stats now l)
  rw [List.length_map, List.length_map] at h
  exact h

/-- **C7.** Enrichment leaves every unpriced product untouched: the output is
an enriched block (whose underlying product records are exactly the priced
inputs, in order) followed by precisely the unpriced inputs, unchanged. -/
theorem unpriced_pass_through :
    ∀ (provider : List EProduct → Option (List Categorization)) (now : String)
      (ps : List EProduct),
      ((categorize_products provider now ps).drop
          ((ps.filter (fun p => p.base.price.isSome)).length) =
        ps.filter (fun p => p.base.price.isNone))
      ∧ (((categorize_products provider now ps).take
          ((ps.filter (fun p => p.base.price.isSome)).length)).map EProduct.base =
        (ps.filter (fun p => p.base.price.isSome)).map EProduct.base) := by
  intro provider now ps
  rw [categorize_products]
  cases hv : ps.filter (fun p => p.base.price.isSome) with
  | nil =>
    dsimp only
    simp only [List.length_nil, List.drop_zero, List.take_zero, List.map_nil]
    refine ⟨?_, trivial⟩
    rw [List.filter_eq_nil_iff] at hv
    symm
    rw [List.filter_eq_self]
    intro p hp
    have := hv p hp
    simp only [Bool.not_eq_true, Option.not_isSome, Option.isNone_iff_eq_none] at this
    simp [this]
  | cons v vs =>
    dsimp only
    have hlen := enriched_flatten_length provider
      ⟨(vs.map (fun p => p.base.price.getD 0)).foldl min (v.base.price.getD 0),
       (vs.map (fun p => p.base.price.getD 0)).foldl max (v.base.price.getD 0),
       (v.base.price.getD 0 + (vs.map (fun p => p.base.price.getD 0)).sum) /
         (((vs.map (fun p => p.base.price.getD 0)).length : ℚ) + 1)⟩
      now (v :: vs)
    constructor
    · rw [List.drop_left' hlen]
    · rw [List.take_left' hlen]
      exact enriched_flatten_base _ _ _ _

/-- `unpriced_pass_through` instantiated at a concrete input. -/
theorem unpriced_pass_through_witness :
    (categorize_products (fun _ => none) "now" [sampleUnpriced]).drop
        (([sampleUnpriced].filter (fun p => p.base.price.isSome)).length) =
      [sampleUnpriced].filter (fun p => p.base.price.isNone) :=
  (unpriced_pass_through (fun _ => none) "now" [sampleUnpriced]).1

lemma extractAux_map_id (t u n : String) :
    ∀ (i : ℕ) (es : List (Option RawTexts)),
      (extractAux t u n i es).map Product.id =
        (okIndicesAux i es).map (fun j => t ++ "_" ++ toString j) := by
  intro i es
  induction es generalizing i with
  | nil => rfl
  | cons e rest ih =>
    cases e with
    | none => exact ih (i + 1)
    | some r =>
      rw [extractAux, okIndicesAux, List.map_cons, List.map_cons, ih (i + 1)]
      rfl

lemma extractAux_length (t u n : String) :
    ∀ (i : ℕ) (es : List (Option RawTexts)),
      (extractAux t u n i es).length = es.countP (fun e => e.isSome) := by
  intro i es
  induction es generalizing i with
  | nil => rfl
  | cons e rest ih =>
    cases e with
    | none =>
      rw [extractAux, ih (i + 1), List.countP_cons_of_neg]
      simp
    | some r =>
      rw [extractAux, List.length_cons, ih (i + 1), List.countP_cons_of_pos]
      simp

lemma okIndicesAux_gt :
    ∀ (i : ℕ) (es : List (Option RawTexts)), ∀ j ∈ okIndicesAux i es, i < j := by
  intro i es
  induction es generalizing i with
  | nil => simp [okIndicesAux]
  | cons e rest ih =>
    cases e with
    | none =>
      intro j hj
      exact Nat.lt_of_succ_lt (ih (i + 1) j hj)
    | some r =>
      intro j hj
      rw [okIndicesAux] at hj
      rcases List.mem_cons.mp hj with rfl | hj
      · exact Nat.lt_succ_self i
      · exact Nat.lt_of_succ_lt (ih (i + 1) j hj)

lemma okIndicesAux_pairwise :
    ∀ (i : ℕ) (es : List (Option RawTexts)),
      (okIndicesAux i es).Pairwise (fun a b => a < b) := by
  intro i es
  induction es generalizing i with
  | nil => exact List.Pairwise.nil
  | cons e rest ih =>
    cases e with
    | none => exact ih (i + 1)
    | some r =>
      rw [okIndicesAux]
      exact List.Pairwise.cons (fun j hj => okIndicesAux_gt (i + 1) rest j hj) (ih (i + 1))

/-- **C5.** The orchestrator extracts at most `max_products` products; ids
carry 1-based ordinals in strictly increasing order; a failing element is
skipped while the rest of the run continues; the product count equals the
number of successfully extracting elements within the cap.  Concretely, 5
elements with cap 3 give exactly the ordinals 1..3, and a failure at element
2 of 5 skips only that element. -/
theorem orchestrator_cap_and_skip :
    (∀ (t u n : String) (elems : List (Option RawTexts)) (maxP : ℕ),
      (extract_products t u n elems maxP).length ≤ maxP
      ∧ (extract_products t u n elems maxP).map Product.id =
          (okIndices elems maxP).map (fun j => t ++ "_" ++ toString j)
      ∧ (okIndices elems maxP).Pairwise (fun a b => a < b)
      ∧ (extract_products t u n elems maxP).length =
          (elems.take maxP).countP (fun e => e.isSome))
    ∧ (extract_products "T" "U" "N"
        [some ⟨"n1", "", "", ""⟩, some ⟨"n2", "", "", ""⟩, some ⟨"n3", "", "", ""⟩,
         some ⟨"n4", "", "", ""⟩, some ⟨"n5", "", "", ""⟩] 3).map Product.id =
        ["T_1", "T_2", "T_3"]
    ∧ (extract_products "T" "U" "N"
        [some ⟨"n1", "", "", ""⟩, none, some ⟨"n3", "", "", ""⟩,
         some ⟨"n4", "", "", ""⟩, some ⟨"n5", "", "", ""⟩] 50).map
          (fun p => (p.id, p.name)) =
        [("T_1", "n1"), ("T_3", "n3"), ("T_4", "n4"), ("T_5", "n5")] := by
  refine ⟨?_, by decide, by decide⟩
  intro t u n elems maxP
  refine ⟨?_, extractAux_map_id t u n 0 (elems.take maxP),
    okIndicesAux_pairwise 0 (elems.take maxP), extractAux_length t u n 0 (elems.take maxP)⟩
  calc (extract_products t u n elems maxP).length
      = (elems.take maxP).countP (fun e => e.isSome) :=
        extractAux_length t u n 0 (elems.take maxP)
    _ ≤ (elems.take maxP).length := List.countP_le_length _
    _ ≤ maxP := by rw [List.length_take]; exact min_le_left _ _

/-- `orchestrator_cap_and_skip` instantiated at a concrete input. -/
theorem orchestrator_cap_witness :
    (extract_products "T" "U" "N" [some ⟨"n1", "", "", ""⟩, none] 7).length ≤ 7 :=
  (orchestrator_cap_and_skip.1 "T" "U" "N" [some ⟨"n1", "", "", ""⟩, none] 7).1

lemma scroll_loop_some {h : ℕ → ℤ} :
    ∀ (fuel i n : ℕ), scroll_loop h i fuel = some n → ∃ j, h (j + 1) = h j := by
  intro fuel
  induction fuel with
  | zero => intro i n hl; exact absurd hl (by rw [scroll_loop]; simp)
  | succ f ih =>
    intro i n hl
    rw [scroll_loop] at hl
    split_ifs at hl with he
    · exact ⟨i, he⟩
    · exact ih (i + 1) n hl

lemma scroll_loop_of_eq {h : ℕ → ℤ} :
    ∀ (d i : ℕ), h (i + d + 1) = h (i + d) → ∃ fuel, (scroll_loop h i fuel).isSome := by
  intro d
  induction d with
  | zero =>
    intro i he
    refine ⟨1, ?_⟩
    rw [scroll_loop, if_pos (by simpa using he)]
    rfl
  | succ e ih =>
    intro i he
    by_cases h0 : h (i + 1) = h i
    · refine ⟨1, ?_⟩
      rw [scroll_loop, if_pos h0]
      rfl
    · obtain ⟨f, hf⟩ := ih (i + 1) (by rw [show i + 1 + e = i + (e + 1) from by omega]; exact he)
      refine ⟨f + 1, ?_⟩
      rw [scroll_loop, if_neg h0]
      exact hf

/-- **C8.** `scroll_to_bottom` scrolls by increments drawn from 300..800 and
terminates exactly when two consecutive height polls coincide; with no outer
bound, a page whose reported height strictly grows at every poll makes the
loop run forever (no fuel ever suffices). -/
theorem scroll_fixed_point_termination :
    (∀ (r : ℕ → ℕ) (i : ℕ), 300 ≤ scrollIncrement r i ∧ scrollIncrement r i ≤ 800)
    ∧ (∀ h : ℕ → ℤ, scroll_to_bottom_terminates h ↔ ∃ i, h (i + 1) = h i)
    ∧ (∀ h : ℕ → ℤ, (∀ i, h i < h (i + 1)) →
        ∀ (fuel i0 : ℕ), scroll_loop h i0 fuel = none) := by
  refine ⟨?_, ?_, ?_⟩
  · intro r i
    rw [scrollIncrement]
    have hm : r i % 501 < 501 := Nat.mod_lt _ (by norm_num)
    omega
  · intro h
    constructor
    · rintro ⟨fuel, hs⟩
      obtain ⟨n, hn⟩ := Option.isSome_iff_exists.mp hs
      exact scroll_loop_some fuel 0 n hn
    · rintro ⟨i, hi⟩
      exact scroll_loop_of_eq i 0 (by simpa using hi)
  · intro h hg fuel
    induction fuel with
    | zero => intro i0; rfl
    | succ f ih =>
      intro i0
      rw [scroll_loop, if_neg (ne_of_gt (hg i0))]
      exact ih i0.succ

/-- `scroll_fixed_point_termination` instantiated at a concrete input: the
strictly growing height stream `h i = i` never terminates, here run with
fuel 5. -/
theorem scroll_fixed_point_witness :
    scroll_loop (fun i => (i : ℤ)) 0 5 = none :=
  scroll_fixed_point_termination.2.2 (fun i => (i : ℤ))
    (fun i => by show (i : ℤ) < ((i + 1 : ℕ) : ℤ); exact_mod_cast Nat.lt_succ_self i) 5 0

lemma decStock_enc (si : StockInfo) : decStock (encStock si) = some si := by
  obtain ⟨a, b, c⟩ := si
  cases a <;> cases b <;> cases c <;> rfl

lemma decProduct_enc (p : Product) : decProduct (encProduct p) = some p := by
  obtain ⟨i, n, pr, prr, ra, rar, si, so, su, sa⟩ := p
  obtain ⟨a, b, c⟩ := si
  cases pr <;> cases ra <;> cases a <;> cases b <;> cases c <;> rfl

lemma mapM_dec_enc (l : List Product) : (l.map encProduct).mapM decProduct = some l := by
  induction l with
  | nil => rfl
  | cons x xs ih =>
    rw [List.map_cons]
    simp only [List.mapM_cons, decProduct_enc, ih]
    rfl

/-- **C9.** Serializing a product sequence to the raw-output JSON document
(`save_to_json`) and reading the `products` array back field by field
reproduces exactly the original records. -/
theorem save_load_round_trip :
    ∀ (target now : String) (ps : List Product),
      load_products (save_to_json target now ps) = some ps := by
  intro target now ps
  show (ps.map encProduct).mapM decProduct = some ps
  exact mapM_dec_enc ps

/-- `save_load_round_trip` instantiated at a concrete input. -/
theorem save_load_round_trip_witness :
    load_products (save_to_json "T" "now"
      [⟨"T_1", "n1", none, "N/A", none, "N/A", ⟨none, none, none⟩, "T", "u", "now"⟩]) =
      some [⟨"T_1", "n1", none, "N/A", none, "N/A", ⟨none, none, none⟩, "T", "u", "now"⟩] :=
  save_load_round_trip "T" "now"
    [⟨"T_1", "n1", none, "N/A", none, "N/A", ⟨none, none, none⟩, "T", "u", "now"⟩]

end SMI
